import Mathlib

/-!
Shallow embedding of the event-store core of `blockchain-universe`
(`internal/blockchain/blockchain.go`).  Go machine state is modelled by
explicit state passing: the `Blockchain` struct's two maps become
association lists (iteration order of a Go map is unspecified; the model
fixes the insertion order), `time.Now()` becomes explicit `now`
parameters, the mutex and the logger are dropped (no concurrency in the
model), and the external crypto primitives (`crypto/sha3`,
`crypto/ed25519`) are fields of a `Crypto` record so theorems can state
exactly which cryptographic properties they use.
-/

namespace BU

/-- A byte, as produced by `crypto` primitives and `encoding/hex`. -/
abbrev Byte := Fin 256

/-- Hex digit characters, lowercase, as produced by `hex.EncodeToString`. -/
def hexDigitChar (n : Nat) : Char :=
  if n < 10 then Char.ofNat (48 + n) else Char.ofNat (87 + n)

/-- `hex.EncodeToString`: each byte becomes two lowercase hex digits. -/
def hexEncodeList : List Byte → List Char
  | [] => []
  | b :: rest => hexDigitChar (b.val / 16) :: hexDigitChar (b.val % 16) :: hexEncodeList rest

/-- `hex.EncodeToString` producing a `String`. -/
def hexEncode (bs : List Byte) : String :=
  String.mk (hexEncodeList bs)

/-- Value of one hex digit accepted by Go's `hex.DecodeString`
(which accepts both lowercase and uppercase digits). -/
def hexDigitVal (ch : Char) : Option Nat :=
  if 48 ≤ ch.toNat ∧ ch.toNat ≤ 57 then some (ch.toNat - 48)
  else if 97 ≤ ch.toNat ∧ ch.toNat ≤ 102 then some (ch.toNat - 87)
  else if 65 ≤ ch.toNat ∧ ch.toNat ≤ 70 then some (ch.toNat - 55)
  else none

/-- `hex.DecodeString` on a character list: pairs of hex digits; odd
length or a non-hex character is an error (`none`). -/
def hexDecodeList : List Char → Option (List Byte)
  | [] => some []
  | [_] => none
  | c1 :: c2 :: rest =>
    match hexDigitVal c1, hexDigitVal c2, hexDecodeList rest with
    | some h, some l, some bs => some (⟨(h * 16 + l) % 256, Nat.mod_lt _ (by omega)⟩ :: bs)
    | _, _, _ => none

/-- `hex.DecodeString` on a `String`. -/
def hexDecode (s : String) : Option (List Byte) :=
  hexDecodeList s.toList

/-- A `\u00xx`-style escape as written by Go's `encoding/json`. -/
def uHex (n : Nat) : List Char :=
  ['\\', 'u', hexDigitChar (n / 4096 % 16), hexDigitChar (n / 256 % 16),
   hexDigitChar (n / 16 % 16), hexDigitChar (n % 16)]

/-- Escaping of one character inside a JSON string, following Go's
`encoding/json` encoder with its default HTML escaping: quote, backslash,
newline, carriage return and tab get short escapes; other control
characters and the HTML characters get `\u00xx`, as do U+2028 and
U+2029. -/
def jsonEscapeChar (ch : Char) : List Char :=
  if ch = '"' then ['\\', '"']
  else if ch = '\\' then ['\\', '\\']
  else if ch = '\n' then ['\\', 'n']
  else if ch = '\r' then ['\\', 'r']
  else if ch = '\t' then ['\\', 't']
  else if ch.toNat < 32 ∨ ch = '<' ∨ ch = '>' ∨ ch = '&' then uHex ch.toNat
  else if ch.toNat = 8232 ∨ ch.toNat = 8233 then uHex ch.toNat
  else [ch]

/-- A JSON string literal for `s`, as a character list. -/
def jsonQuote (s : String) : List Char :=
  '"' :: (s.toList.foldr (fun c acc => jsonEscapeChar c ++ acc) []) ++ ['"']

/-- Byte-wise string comparison, as used by Go's `sort.Strings` on the
payload map keys (codepoint order coincides with UTF-8 byte order). -/
def strLeChars : List Char → List Char → Bool
  | [], _ => true
  | _ :: _, [] => false
  | c :: cs, d :: ds =>
    if c.toNat < d.toNat then true
    else if d.toNat < c.toNat then false
    else strLeChars cs ds

/-- Insertion step of the key sort used when marshalling the payload map. -/
def insertKey (x : String × String) : List (String × String) → List (String × String)
  | [] => [x]
  | y :: ys => if strLeChars x.1.toList y.1.toList then x :: y :: ys else y :: insertKey x ys

/-- Sorting of the payload map entries by key, as `encoding/json` does
for a `map[string]string`. -/
def sortByKey : List (String × String) → List (String × String)
  | [] => []
  | x :: xs => insertKey x (sortByKey xs)

/-- `json.Marshal` of a `map[string]string`: keys in sorted order.
(A Go `nil` map would marshal to `null`; the list model does not
distinguish `nil` from empty, and no claim depends on it.) -/
def marshalPayload (m : List (String × String)) : List Char :=
  '\x7b' :: List.intercalate [','] ((sortByKey m).map (fun kv => jsonQuote kv.1 ++ [':'] ++ jsonQuote kv.2)) ++ ['\x7d']

/-- The `Data` payload of an event: the anonymous struct inside Go's
`Event` (`type`, `description`, `payload`, `timestamp` json fields).
The Go field `Type` is spelled `Type'` because `Type` is reserved in
Lean; `Timestamp` carries the RFC3339 string stamped at creation. -/
structure EventData where
  Type' : String
  Description : String
  Payload : List (String × String)
  Timestamp : String
deriving DecidableEq

/-- A blockchain event: payload data, parent hashes, hex signature and
hex author public key. -/
structure Event where
  Data : EventData
  Parents : List String
  Signature : String
  AuthorPubKey : String
deriving DecidableEq

/-- Information about a known agent.  `LastSeen` (Go `time.Time`) is
modelled as an abstract tick supplied to `AddEvent`. -/
structure AgentInfo where
  PubKey : String
  LastEventHash : String
  LastSeen : Nat
deriving DecidableEq

/-- The external crypto primitives used by the store: `sha3.Sum512`
(applied to the `json.Marshal` bytes, modelled as the marshalled string)
and `ed25519.Sign`/`ed25519.Verify` (the signed message is the byte
sequence of the hex hash string). -/
structure Crypto where
  sha3Sum512 : String → List Byte
  ed25519Sign : List Byte → String → List Byte
  ed25519Verify : List Byte → String → List Byte → Bool

/-- The store state: the `events` and `agents` maps, as association
lists in insertion order (the mutex and the logger of the Go struct
have no counterpart in the sequential model). -/
structure Blockchain where
  events : List (String × Event)
  agents : List (String × AgentInfo)
deriving DecidableEq

/-- `New`: a fresh store with empty maps. -/
def New : Blockchain := ⟨[], []⟩

/-- Go map read `m[k]`. -/
def mapGet {α : Type} : List (String × α) → String → Option α
  | [], _ => none
  | (k, v) :: rest, h => if k = h then some v else mapGet rest h

/-- Go map write `m[k] = v`: replaces an existing binding in place,
otherwise appends. -/
def upsert {α : Type} : List (String × α) → String → α → List (String × α)
  | [], k, v => [(k, v)]
  | (k', v') :: rest, k, v =>
    if k' = k then (k, v) :: rest else (k', v') :: upsert rest k v

/-- `json.Marshal(event.Data)`: the four json fields in declaration
order, the payload map with sorted keys. -/
def marshalData (d : EventData) : List Char :=
  "\x7b\"type\":".toList ++ jsonQuote d.Type' ++
  ",\"description\":".toList ++ jsonQuote d.Description ++
  ",\"payload\":".toList ++ marshalPayload d.Payload ++
  ",\"timestamp\":".toList ++ jsonQuote d.Timestamp ++ ['\x7d']

/-- `HashEvent`: `hex.EncodeToString(sha3.Sum512(json.Marshal(event.Data)))`.
Reads only `event.Data` (the Go receiver is unused). -/
def HashEvent (c : Crypto) (event : Event) : String :=
  hexEncode (c.sha3Sum512 (String.mk (marshalData event.Data)))

/-- `signEvent`: signs the hex hash string of the event with the private
key; the Go function's error result is the literal `nil`. -/
def signEvent (c : Crypto) (event : Event) (priv : List Byte) : String × Option String :=
  let eventHash := HashEvent c event
  let signature := c.ed25519Sign priv eventHash
  (hexEncode signature, none)

/-- The event record built by `CreateEvent` before signing: all fields of
`Event` are assigned except `Signature`, which still holds the Go zero
value `""`; `Timestamp` receives the formatted current time `now`. -/
def eventRecord (eventType description : String) (payload : List (String × String))
    (parents : List String) (pub : List Byte) (now : String) : Event :=
  { Data := { Type' := eventType, Description := description,
              Payload := payload, Timestamp := now },
    Parents := parents, Signature := "", AuthorPubKey := hexEncode pub }

/-- `CreateEvent`: builds the event record, signs it, and returns the
signed event; the store is passed through untouched (the Go method never
reads or writes the receiver's maps).  `now` stands for
`time.Now().UTC().Format(time.RFC3339)`. -/
def CreateEvent (c : Crypto) (bc : Blockchain) (eventType description : String)
    (payload : List (String × String)) (parents : List String)
    (pub priv : List Byte) (now : String) : Blockchain × Except String Event :=
  let event := eventRecord eventType description payload parents pub now
  match signEvent c event priv with
  | (_, some err) => (bc, Except.error ("failed to sign event: " ++ err))
  | (signature, none) => (bc, Except.ok { event with Signature := signature })

/-- `verifyEvent`: hex-decode the author key, hex-decode the signature,
recompute the payload hash and check the Ed25519 signature over it. -/
def verifyEvent (c : Crypto) (event : Event) : Except String Unit :=
  match hexDecode event.AuthorPubKey with
  | none => Except.error ("invalid public key")
  | some pubKeyBytes =>
    match hexDecode event.Signature with
    | none => Except.error ("invalid signature")
    | some signatureBytes =>
      let eventHash := HashEvent c event
      if c.ed25519Verify pubKeyBytes eventHash signatureBytes then Except.ok ()
      else Except.error ("signature verification failed")

/-- `AddEvent`: verify, then insert under the recomputed hash and upsert
the author's `AgentInfo`.  Returns the post-state and the error result
(`none` = the Go `nil`); `now` stands for the `time.Now()` stored in
`LastSeen`. -/
def AddEvent (c : Crypto) (bc : Blockchain) (event : Event) (now : Nat) :
    Blockchain × Option String :=
  match verifyEvent c event with
  | Except.error msg => (bc, some ("event verification failed: " ++ msg))
  | Except.ok _ =>
    let hash := HashEvent c event
    let events := upsert bc.events hash event
    let agents := upsert bc.agents event.AuthorPubKey
      { PubKey := event.AuthorPubKey, LastEventHash := hash, LastSeen := now }
    ({ events := events, agents := agents }, none)

/-- `GetEvent`: map lookup, reporting presence through the option. -/
def GetEvent (bc : Blockchain) (hash : String) : Option Event :=
  mapGet bc.events hash

/-- A Go slice expression `xs[lo:]` (here capacity equals length):
panics — modelled as `none` — unless `0 ≤ lo ≤ len(xs)`. -/
def goSliceFrom {α : Type} (xs : List α) (lo : Int) : Option (List α) :=
  if 0 ≤ lo ∧ lo ≤ (xs.length : Int) then some (xs.drop lo.toNat) else none

/-- `GetRecentEvents`: copies the events map into a slice (Go map
iteration order is unspecified; the model fixes the list order) and,
when more than `limit` events exist, takes `events[len(events)-limit:]`.
Despite the source comment "Sort by timestamp (simplified ...)", no
sorting is performed. -/
def GetRecentEvents (bc : Blockchain) (limit : Int) : Option (List Event) :=
  let events := bc.events.map Prod.snd
  if (events.length : Int) > limit then
    goSliceFrom events ((events.length : Int) - limit)
  else
    some events

/-- `GetAgents`: a copy of the agents registry. -/
def GetAgents (bc : Blockchain) : List (String × AgentInfo) :=
  bc.agents

/-- The accumulating state of `GetEventChain`'s recursive `traverse`
closure: the chain built so far and the visited set. -/
structure TraverseState where
  chain : List Event
  visited : List String
deriving DecidableEq

/-- The `traverse` closure of `GetEventChain`.  Go recurses with a
`depth` counter and stops when `depth >= maxDepth` or `h` is visited;
the model carries the remaining depth budget `fuel = maxDepth - depth`,
so the guard `depth >= maxDepth` is `fuel = 0`; the
`for _, parent := range event.Parents` loop is the fold, each parent
traversed at `depth+1`, i.e. with one unit less fuel. -/
def traverse (bc : Blockchain) : Nat → String → TraverseState → TraverseState
  | 0, _, st => st
  | fuel + 1, h, st =>
    if st.visited.contains h then st
    else
      match mapGet bc.events h with
      | none => st
      | some event =>
        event.Parents.foldl (fun acc p => traverse bc fuel p acc)
          ⟨st.chain ++ [event], h :: st.visited⟩

/-- `GetEventChain`: depth-first ancestor traversal from `hash`,
bounded by `maxDepth` hops, with a visited set. -/
def GetEventChain (bc : Blockchain) (hash : String) (maxDepth : Int) : List Event :=
  (traverse bc maxDepth.toNat hash ⟨[], []⟩).chain

/-- A sequence of `AddEvent` calls (each with its event and its
`time.Now()` tick), stopping at the first failure; the flag records
whether every call succeeded.  Specification scaffolding for claims
quantifying over call sequences. -/
def addAll (c : Crypto) : Blockchain → List (Event × Nat) → Blockchain × Bool
  | bc, [] => (bc, true)
  | bc, (e, t) :: rest =>
    match AddEvent c bc e t with
    | (bc1, none) => addAll c bc1 rest
    | (bc1, some _) => (bc1, false)

/-- A parent-path of length `n` in the store: `PathTo bc start h n`
holds when `h` is reachable from `start` in exactly `n` parent hops. -/
inductive PathTo (bc : Blockchain) (start : String) : String → Nat → Prop
  | refl : PathTo bc start start 0
  | step {h n e p} : PathTo bc start h n → mapGet bc.events h = some e →
      p ∈ e.Parents → PathTo bc start p (n + 1)

/-- The signed event returned by a successful `CreateEvent`: the record
with the signature filled in.  (`CreateEvent` returns exactly this, see
`CreateEvent_eq_createdEvent`.) -/
def createdEvent (c : Crypto) (eventType description : String)
    (payload : List (String × String)) (parents : List String)
    (pub priv : List Byte) (now : String) : Event :=
  let event := eventRecord eventType description payload parents pub now
  { event with Signature := (signEvent c event priv).1 }

/-- Fixed-width (three-byte) encoding of one character; injective
because every code point is below `2^24`. -/
def charBytes (ch : Char) : List Byte :=
  [⟨ch.toNat % 256, Nat.mod_lt _ (by omega)⟩,
   ⟨ch.toNat / 256 % 256, Nat.mod_lt _ (by omega)⟩,
   ⟨ch.toNat / 65536 % 256, Nat.mod_lt _ (by omega)⟩]

/-- Concatenated fixed-width encodings of a character list. -/
def charsBytes : List Char → List Byte
  | [] => []
  | c :: cs => charBytes c ++ charsBytes cs

/-- Injective byte encoding of a string, used by the concrete crypto
instantiation below as the signed-message encoding. -/
def strBytes (s : String) : List Byte :=
  charsBytes s.toList

/-- A compact digest used by the concrete crypto instantiation: a
rolling byte over the characters of the marshalled payload. -/
def rollByte (s : String) : Byte :=
  s.toList.foldl (fun a c => ⟨(a.val * 31 + c.toNat) % 256, Nat.mod_lt _ (by omega)⟩)
    ⟨7, by omega⟩

/-- A concrete, executable instantiation of the crypto primitives, used
to evaluate the store operations on closed inputs: the digest is a
rolling byte, a signature is the private key followed by the injectively
encoded message, and verification checks a signature against the public
key and the message (so it accepts exactly when the signer's private key
equals the public key and the message matches). -/
def demoCrypto : Crypto :=
  { sha3Sum512 := fun s => [rollByte s],
    ed25519Sign := fun priv msg => priv ++ strBytes msg,
    ed25519Verify := fun pub msg sig => decide (sig = pub ++ strBytes msg) }

/-- A key used with `demoCrypto`; under `demoCrypto` a key pair matches
when both halves are the same byte list. -/
def demoKey : List Byte := [1]

/-- A first concrete event, as created by `CreateEvent` under
`demoCrypto`. -/
def demoE1 : Event :=
  createdEvent demoCrypto ("init") ("First event") [] [] demoKey demoKey
    ("2024-01-01T00:00:00Z")

/-- A second concrete event whose parent is `demoE1`'s hash. -/
def demoE2 : Event :=
  createdEvent demoCrypto ("state_change") ("Second event") []
    [HashEvent demoCrypto demoE1] demoKey demoKey ("2024-01-01T00:00:01Z")

/-- The store after accepting `demoE1` and then `demoE2`. -/
def demoStore2 : Blockchain :=
  (AddEvent demoCrypto (AddEvent demoCrypto New demoE1 0).1 demoE2 1).1

/-! ### Lemmas about hex encoding and the map primitives -/

theorem hexDigitVal_hexDigitChar : ∀ n : Fin 16, hexDigitVal (hexDigitChar n.val) = some n.val := by
  decide

theorem hexDecodeList_hexEncodeList (bs : List Byte) :
    hexDecodeList (hexEncodeList bs) = some bs := by
  induction bs with
  | nil => rfl
  | cons b rest ih =>
    have h1 : hexDigitVal (hexDigitChar (b.val / 16)) = some (b.val / 16) := by
      have := hexDigitVal_hexDigitChar ⟨b.val / 16, by omega⟩
      simpa using this
    have h2 : hexDigitVal (hexDigitChar (b.val % 16)) = some (b.val % 16) := by
      have := hexDigitVal_hexDigitChar ⟨b.val % 16, by omega⟩
      simpa using this
    have hb : (b.val / 16 * 16 + b.val % 16) % 256 = b.val := by omega
    show hexDecodeList (hexDigitChar (b.val / 16) :: hexDigitChar (b.val % 16) :: hexEncodeList rest) = some (b :: rest)
    simp [hexDecodeList, h1, h2, ih, Fin.ext_iff, hb]

theorem hexDecode_hexEncode (bs : List Byte) : hexDecode (hexEncode bs) = some bs := by
  simpa [hexDecode, hexEncode] using hexDecodeList_hexEncodeList bs

theorem mapGet_upsert_self {α : Type} (m : List (String × α)) (k : String) (v : α) :
    mapGet (upsert m k v) k = some v := by
  induction m with
  | nil => simp [upsert, mapGet]
  | cons kv rest ih =>
    obtain ⟨k', v'⟩ := kv
    by_cases h : k' = k
    · simp [upsert, mapGet, h]
    · simp [upsert, mapGet, h, ih]

theorem mapGet_upsert_ne {α : Type} (m : List (String × α)) (k k' : String) (v : α)
    (h : k' ≠ k) : mapGet (upsert m k v) k' = mapGet m k' := by
  induction m with
  | nil => simp [upsert, mapGet, Ne.symm h]
  | cons kv rest ih =>
    obtain ⟨k0, v0⟩ := kv
    by_cases h0 : k0 = k
    · subst h0
      simp [upsert, mapGet, Ne.symm h]
    · simp [upsert, mapGet, h0, ih]

theorem mapGet_upsert_isSome {α : Type} (m : List (String × α)) (k k' : String) (v : α)
    (h : (mapGet m k').isSome = true) : (mapGet (upsert m k v) k').isSome = true := by
  by_cases hk : k' = k
  · subst hk
    simp [mapGet_upsert_self]
  · simpa [mapGet_upsert_ne m k k' v hk] using h

theorem keys_upsert {α : Type} (m : List (String × α)) (k : String) (v : α) :
    (upsert m k v).map Prod.fst =
      if k ∈ m.map Prod.fst then m.map Prod.fst else m.map Prod.fst ++ [k] := by
  induction m with
  | nil => simp [upsert]
  | cons kv rest ih =>
    obtain ⟨k0, v0⟩ := kv
    by_cases h0 : k0 = k
    · subst h0
      simp [upsert]
    · by_cases h1 : k ∈ rest.map Prod.fst
      · simp [upsert, h0, ih, h1, Ne.symm h0]
      · simp [upsert, h0, ih, h1, Ne.symm h0]

theorem keys_upsert_nodup {α : Type} (m : List (String × α)) (k : String) (v : α)
    (h : (m.map Prod.fst).Nodup) : ((upsert m k v).map Prod.fst).Nodup := by
  rw [keys_upsert]
  by_cases h1 : k ∈ m.map Prod.fst
  · simpa [h1] using h
  · simp [h1, List.nodup_append, h]

theorem count_keys_upsert {α : Type} (m : List (String × α)) (k : String) (v : α)
    (h : (m.map Prod.fst).Nodup) : ((upsert m k v).map Prod.fst).count k = 1 := by
  rw [keys_upsert]
  by_cases h1 : k ∈ m.map Prod.fst
  · simpa [h1] using List.count_eq_one_of_mem h h1
  · simp [h1, List.count_append, List.count_eq_zero_of_not_mem h1]

/-! ### Structural lemmas about the store operations -/

theorem CreateEvent_eq_createdEvent (c : Crypto) (bc : Blockchain)
    (eventType description : String) (payload : List (String × String))
    (parents : List String) (pub priv : List Byte) (now : String) :
    CreateEvent c bc eventType description payload parents pub priv now =
      (bc, Except.ok (createdEvent c eventType description payload parents pub priv now)) :=
  rfl

theorem createdEvent_AuthorPubKey (c : Crypto) (eventType description : String)
    (payload : List (String × String)) (parents : List String)
    (pub priv : List Byte) (now : String) :
    (createdEvent c eventType description payload parents pub priv now).AuthorPubKey =
      hexEncode pub :=
  rfl

theorem createdEvent_Signature (c : Crypto) (eventType description : String)
    (payload : List (String × String)) (parents : List String)
    (pub priv : List Byte) (now : String) :
    (createdEvent c eventType description payload parents pub priv now).Signature =
      hexEncode (c.ed25519Sign priv
        (HashEvent c (createdEvent c eventType description payload parents pub priv now))) :=
  rfl

theorem verifyEvent_ok (c : Crypto) (event : Event) (pub sig : List Byte)
    (hpub : event.AuthorPubKey = hexEncode pub)
    (hsig : event.Signature = hexEncode sig)
    (hver : c.ed25519Verify pub (HashEvent c event) sig = true) :
    verifyEvent c event = Except.ok () := by
  simp [verifyEvent, hpub, hsig, hexDecode_hexEncode, hver]

theorem AddEvent_ok_state (c : Crypto) (bc : Blockchain) (event : Event) (now : Nat)
    (h : verifyEvent c event = Except.ok ()) :
    AddEvent c bc event now =
      ({ events := upsert bc.events (HashEvent c event) event,
         agents := upsert bc.agents event.AuthorPubKey
           { PubKey := event.AuthorPubKey, LastEventHash := HashEvent c event,
             LastSeen := now } }, none) := by
  simp [AddEvent, h]

theorem AddEvent_error_shape (c : Crypto) (bc : Blockchain) (event : Event) (now : Nat)
    (msg : String) (h : verifyEvent c event = Except.error msg) :
    AddEvent c bc event now = (bc, some ("event verification failed: " ++ msg)) := by
  simp [AddEvent, h]

theorem AddEvent_ok_of_snd_none (c : Crypto) (bc : Blockchain) (event : Event) (now : Nat)
    (h : (AddEvent c bc event now).2 = none) : verifyEvent c event = Except.ok () := by
  cases hv : verifyEvent c event with
  | ok u =>
    cases u
    rfl
  | error msg =>
    rw [AddEvent_error_shape c bc event now msg hv] at h
    simp at h

/-! ### C10 -/

/-- C10: `signEvent` unconditionally returns a `nil` error, so
`CreateEvent` never returns an error: for every input it returns the
fully-populated signed event, whose payload fields, parents and author
key are the given arguments and whose signature is the hex Ed25519
signature of the event's hash. -/
theorem createEvent_never_errors :
    (∀ (c : Crypto) (event : Event) (priv : List Byte),
      (signEvent c event priv).2 = none) ∧
    (∀ (c : Crypto) (bc : Blockchain) (eventType description : String)
      (payload : List (String × String)) (parents : List String)
      (pub priv : List Byte) (now : String),
      ∃ ev, (CreateEvent c bc eventType description payload parents pub priv now).2 =
          Except.ok ev ∧
        ev.Data.Type' = eventType ∧ ev.Data.Description = description ∧
        ev.Data.Payload = payload ∧ ev.Data.Timestamp = now ∧
        ev.Parents = parents ∧ ev.AuthorPubKey = hexEncode pub ∧
        ev.Signature = hexEncode (c.ed25519Sign priv (HashEvent c ev))) := by
  constructor
  · intro c event priv
    rfl
  · intro c bc eventType description payload parents pub priv now
    exact ⟨createdEvent c eventType description payload parents pub priv now,
      rfl, rfl, rfl, rfl, rfl, rfl, rfl, rfl⟩

/-! ### C8 -/

/-- C8: `CreateEvent` is pure with respect to the store: the store
component of its result is the input store, its event/error result does
not depend on the store, and whenever signing reports no error the call
returns the signed event (it errors only when signing fails). -/
theorem createEvent_pure :
    ∀ (c : Crypto) (bc : Blockchain) (eventType description : String)
      (payload : List (String × String)) (parents : List String)
      (pub priv : List Byte) (now : String),
      (CreateEvent c bc eventType description payload parents pub priv now).1 = bc ∧
      (∀ bc' : Blockchain,
        (CreateEvent c bc eventType description payload parents pub priv now).2 =
        (CreateEvent c bc' eventType description payload parents pub priv now).2) ∧
      ((signEvent c (eventRecord eventType description payload parents pub now) priv).2 = none →
        (CreateEvent c bc eventType description payload parents pub priv now).2 =
          Except.ok (createdEvent c eventType description payload parents pub priv now)) := by
  intro c bc eventType description payload parents pub priv now
  exact ⟨rfl, fun bc' => rfl, fun _ => rfl⟩

/-- Witness for C8 at concrete inputs: the store is returned unchanged
and the created event is `demoE1`. -/
theorem createEvent_pure_witness :
    (CreateEvent demoCrypto New ("init") ("First event") [] [] demoKey demoKey
      ("2024-01-01T00:00:00Z")).1 = New ∧
    (CreateEvent demoCrypto New ("init") ("First event") [] [] demoKey demoKey
      ("2024-01-01T00:00:00Z")).2 = Except.ok demoE1 := by
  refine ⟨(createEvent_pure demoCrypto New ("init") ("First event") [] [] demoKey demoKey
    ("2024-01-01T00:00:00Z")).1, ?_⟩
  exact (createEvent_pure demoCrypto New ("init") ("First event") [] [] demoKey demoKey
    ("2024-01-01T00:00:00Z")).2.2 rfl

/-! ### C4 -/

/-- C4: whenever `AddEvent` returns an error, the store — both the
`events` and the `agents` map — is exactly as it was before the call. -/
theorem addEvent_error_leaves_store :
    ∀ (c : Crypto) (bc : Blockchain) (event : Event) (now : Nat),
      ((AddEvent c bc event now).2).isSome = true →
      (AddEvent c bc event now).1 = bc := by
  intro c bc event now h
  cases hv : verifyEvent c event with
  | ok u =>
    cases u
    rw [AddEvent_ok_state c bc event now hv] at h
    simp at h
  | error msg =>
    rw [AddEvent_error_shape c bc event now msg hv]

/-- An event with a malformed hex author key: `AddEvent` must reject it. -/
def demoBadKeyEvent : Event :=
  { demoE1 with AuthorPubKey := "zz" }

set_option maxRecDepth 4000 in
/-- Witness for C4: at a concrete rejected event the store is unchanged. -/
theorem addEvent_error_leaves_store_witness :
    ((AddEvent demoCrypto demoStore2 demoBadKeyEvent 5).2).isSome = true ∧
    (AddEvent demoCrypto demoStore2 demoBadKeyEvent 5).1 = demoStore2 :=
  ⟨by decide, addEvent_error_leaves_store demoCrypto demoStore2 demoBadKeyEvent 5 (by decide)⟩

/-! ### C2 -/

/-- C2: the hash identifier is computed over the payload `Data` alone,
so events with identical payloads hash identically regardless of their
parents, author key or signature; and a successful `AddEvent` of a
second such event stores it under that same hash, overwriting the
first. -/
theorem hashEvent_payload_only :
    (∀ (c : Crypto) (e1 e2 : Event), e1.Data = e2.Data →
      HashEvent c e1 = HashEvent c e2) ∧
    (∀ (c : Crypto) (bc : Blockchain) (e1 e2 : Event) (now : Nat), e1.Data = e2.Data →
      (AddEvent c bc e2 now).2 = none →
      mapGet ((AddEvent c bc e2 now).1).events (HashEvent c e1) = some e2) := by
  constructor
  · intro c e1 e2 h
    simp [HashEvent, h]
  · intro c bc e1 e2 now h hok
    have hv := AddEvent_ok_of_snd_none c bc e2 now hok
    rw [AddEvent_ok_state c bc e2 now hv]
    have hh : HashEvent c e1 = HashEvent c e2 := by simp [HashEvent, h]
    rw [hh]
    exact mapGet_upsert_self bc.events (HashEvent c e2) e2

/-- An event with the same payload as `demoE1` but different parents:
it hashes identically and overwrites `demoE1` in storage. -/
def demoE1b : Event :=
  createdEvent demoCrypto ("init") ("First event") []
    [HashEvent demoCrypto demoE2] demoKey demoKey ("2024-01-01T00:00:00Z")

set_option maxRecDepth 4000 in
/-- Witness for C2: `demoE1b` has `demoE1`'s payload but different
parents, hashes the same, and once accepted it sits in storage under
`demoE1`'s hash. -/
theorem hashEvent_payload_only_witness :
    HashEvent demoCrypto demoE1 = HashEvent demoCrypto demoE1b ∧
    mapGet ((AddEvent demoCrypto (AddEvent demoCrypto New demoE1 0).1 demoE1b 1).1).events
      (HashEvent demoCrypto demoE1) = some demoE1b :=
  ⟨hashEvent_payload_only.1 demoCrypto demoE1 demoE1b rfl,
   hashEvent_payload_only.2 demoCrypto (AddEvent demoCrypto New demoE1 0).1 demoE1 demoE1b 1
     rfl (by decide)⟩

/-! ### Injectivity of the demo signing encoding -/

theorem char_toNat_bound (c : Char) : c.toNat < 16777216 := by
  rcases c.valid with h | h
  · exact Nat.lt_trans h (by norm_num)
  · exact Nat.lt_trans h.2 (by norm_num)

theorem charBytes_inj (c d : Char) (h : charBytes c = charBytes d) : c = d := by
  simp only [charBytes, List.cons.injEq, Fin.mk.injEq, and_true] at h
  obtain ⟨h1, h2, h3⟩ := h
  have b1 := char_toNat_bound c
  have b2 := char_toNat_bound d
  have : c.toNat = d.toNat := by omega
  exact Char.ext (UInt32.ext this)

theorem charsBytes_inj : ∀ l1 l2 : List Char, charsBytes l1 = charsBytes l2 → l1 = l2 := by
  intro l1
  induction l1 with
  | nil =>
    intro l2 h
    cases l2 with
    | nil => rfl
    | cons d ds => simp [charsBytes, charBytes] at h
  | cons c cs ih =>
    intro l2 h
    cases l2 with
    | nil => simp [charsBytes, charBytes] at h
    | cons d ds =>
      simp only [charsBytes, charBytes, List.cons_append, List.nil_append,
        List.cons.injEq] at h
      obtain ⟨h1, h2, h3, h4⟩ := h
      have hc : c = d := charBytes_inj c d (by
        simp only [charBytes, List.cons.injEq, and_true]
        exact ⟨h1, h2, h3⟩)
      rw [hc, ih ds h4]

theorem strBytes_inj (s t : String) (h : strBytes s = strBytes t) : s = t := by
  have hl : s.toList = t.toList := charsBytes_inj _ _ h
  cases s
  cases t
  exact congrArg String.mk (by simpa using hl)

/-! ### C6 -/

/-- C6: for every event produced by `CreateEvent` with a matching key
pair (the verification of a signature made with `priv` under `pub`
succeeds), `AddEvent` on the unmodified event succeeds, and `GetEvent`
at the event's hash finds it and returns the identical event (hence an
identical payload). -/
theorem createEvent_addEvent_getEvent :
    ∀ (c : Crypto) (bc bc2 : Blockchain) (eventType description : String)
      (payload : List (String × String)) (parents : List String)
      (pub priv : List Byte) (now : String) (event : Event) (t : Nat),
      (∀ msg, c.ed25519Verify pub msg (c.ed25519Sign priv msg) = true) →
      (CreateEvent c bc eventType description payload parents pub priv now).2 =
        Except.ok event →
      (AddEvent c bc2 event t).2 = none ∧
      GetEvent ((AddEvent c bc2 event t).1) (HashEvent c event) = some event := by
  intro c bc bc2 eventType description payload parents pub priv now event t hkp hcr
  rw [CreateEvent_eq_createdEvent] at hcr
  have hev : event = createdEvent c eventType description payload parents pub priv now := by
    cases hcr
    rfl
  subst hev
  have hv : verifyEvent c (createdEvent c eventType description payload parents pub priv now) =
      Except.ok () :=
    verifyEvent_ok c _ pub _ (createdEvent_AuthorPubKey c _ _ _ _ _ _ _)
      (createdEvent_Signature c _ _ _ _ _ _ _) (hkp _)
  rw [AddEvent_ok_state c bc2 _ t hv]
  exact ⟨rfl, mapGet_upsert_self _ _ _⟩

/-- Witness for C6: creating and adding `demoE1` under `demoCrypto`
succeeds and `GetEvent` returns it. -/
theorem createEvent_addEvent_getEvent_witness :
    (AddEvent demoCrypto New demoE1 0).2 = none ∧
    GetEvent ((AddEvent demoCrypto New demoE1 0).1) (HashEvent demoCrypto demoE1) =
      some demoE1 :=
  createEvent_addEvent_getEvent demoCrypto New New ("init") ("First event") [] []
    demoKey demoKey ("2024-01-01T00:00:00Z") demoE1 0
    (by intro msg; simp [demoCrypto]) rfl

/-! ### C3 -/

/-- C3: `AddEvent` returns a verification error whenever the author key
is malformed hex, the signature is malformed hex, or Ed25519
verification of the recomputed payload hash fails; in particular, for an
event signed as `CreateEvent` signs (signature over the original hash),
mutating payload fields so that the hash changes makes verification fail
(assuming the crypto rejects signatures checked against a different
message, the unforgeability property of Ed25519). -/
theorem addEvent_rejects_tampering :
    (∀ (c : Crypto) (bc : Blockchain) (event : Event) (now : Nat),
      hexDecode event.AuthorPubKey = none →
      (AddEvent c bc event now).2 = some ("event verification failed: invalid public key")) ∧
    (∀ (c : Crypto) (bc : Blockchain) (event : Event) (now : Nat) (pk : List Byte),
      hexDecode event.AuthorPubKey = some pk →
      hexDecode event.Signature = none →
      (AddEvent c bc event now).2 = some ("event verification failed: invalid signature")) ∧
    (∀ (c : Crypto) (bc : Blockchain) (event : Event) (now : Nat) (pk sg : List Byte),
      hexDecode event.AuthorPubKey = some pk →
      hexDecode event.Signature = some sg →
      c.ed25519Verify pk (HashEvent c event) sg = false →
      (AddEvent c bc event now).2 =
        some ("event verification failed: signature verification failed")) ∧
    (∀ (c : Crypto) (bc : Blockchain) (now : Nat) (pub priv : List Byte) (e e' : Event),
      e.AuthorPubKey = hexEncode pub →
      e.Signature = hexEncode (c.ed25519Sign priv (HashEvent c e)) →
      e'.AuthorPubKey = e.AuthorPubKey →
      e'.Signature = e.Signature →
      HashEvent c e' ≠ HashEvent c e →
      (∀ m m', m ≠ m' → c.ed25519Verify pub m' (c.ed25519Sign priv m) = false) →
      (AddEvent c bc e' now).2 =
        some ("event verification failed: signature verification failed")) := by
  refine ⟨?_, ?_, ?_, ?_⟩
  · intro c bc event now h
    simp [AddEvent, verifyEvent, h]
  · intro c bc event now pk h1 h2
    simp [AddEvent, verifyEvent, h1, h2]
  · intro c bc event now pk sg h1 h2 h3
    simp [AddEvent, verifyEvent, h1, h2, h3]
  · intro c bc now pub priv e e' hpub hsig hpub' hsig' hneq hsound
    have h1 : hexDecode e'.AuthorPubKey = some pub := by
      rw [hpub', hpub]
      exact hexDecode_hexEncode pub
    have h2 : hexDecode e'.Signature = some (c.ed25519Sign priv (HashEvent c e)) := by
      rw [hsig', hsig]
      exact hexDecode_hexEncode _
    have h3 : c.ed25519Verify pub (HashEvent c e') (c.ed25519Sign priv (HashEvent c e)) = false :=
      hsound (HashEvent c e) (HashEvent c e') (Ne.symm hneq)
    simp [AddEvent, verifyEvent, h1, h2, h3]

/-- An event with a malformed hex signature. -/
def demoBadSigEvent : Event :=
  { demoE1 with Signature := "zz" }

/-- An event whose hex fields decode but whose signature does not verify. -/
def demoWrongSigEvent : Event :=
  { demoE1 with Signature := "00" }

/-- `demoE1` with its description tampered after signing. -/
def demoTamperedEvent : Event :=
  { demoE1 with Data := { demoE1.Data with Description := "Tampered description" } }

set_option maxRecDepth 4000 in
/-- Witness for C3: each rejection case at a concrete input, including
the post-signing payload tampering of `demoE1`. -/
theorem addEvent_rejects_tampering_witness :
    (AddEvent demoCrypto New demoBadKeyEvent 0).2 =
      some ("event verification failed: invalid public key") ∧
    (AddEvent demoCrypto New demoBadSigEvent 0).2 =
      some ("event verification failed: invalid signature") ∧
    (AddEvent demoCrypto New demoWrongSigEvent 0).2 =
      some ("event verification failed: signature verification failed") ∧
    (AddEvent demoCrypto New demoTamperedEvent 0).2 =
      some ("event verification failed: signature verification failed") := by
  refine ⟨?_, ?_, ?_, ?_⟩
  · exact addEvent_rejects_tampering.1 demoCrypto New demoBadKeyEvent 0 (by decide)
  · exact addEvent_rejects_tampering.2.1 demoCrypto New demoBadSigEvent 0 demoKey
      (by decide) (by decide)
  · exact addEvent_rejects_tampering.2.2.1 demoCrypto New demoWrongSigEvent 0 demoKey
      ([0] : List Byte) (by decide) (by decide) (by decide)
  · refine addEvent_rejects_tampering.2.2.2 demoCrypto New 0 demoKey demoKey demoE1
      demoTamperedEvent rfl rfl rfl rfl (by decide) ?_
    intro m m' hne
    simp only [demoCrypto, demoKey, decide_eq_false_iff_not]
    intro hcontra
    exact hne (strBytes_inj m m' (by simpa using hcontra))

/-! ### C9 -/

set_option maxRecDepth 4000 in
/-- C9: `GetRecentEvents` is total (the Go slice bounds are in range)
for every limit `≥ 0`, returning `min limit (number of stored events)`
events; for a negative limit and a non-empty store, the slice lower
bound `len(events)-limit` exceeds the slice length, so the call panics
(`none` in the model): a non-negative limit is a genuine safety
precondition. -/
theorem getRecentEvents_safety :
    (∀ (bc : Blockchain) (limit : Int), 0 ≤ limit →
      ∃ res, GetRecentEvents bc limit = some res ∧
        res.length = min limit.toNat bc.events.length) ∧
    GetRecentEvents demoStore2 (-1) = none := by
  constructor
  · intro bc limit hlim
    have hlen : (bc.events.map Prod.snd).length = bc.events.length := List.length_map _ _
    by_cases hgt : ((bc.events.map Prod.snd).length : Int) > limit
    · refine ⟨(bc.events.map Prod.snd).drop
        (((bc.events.map Prod.snd).length : Int) - limit).toNat, ?_, ?_⟩
      · show (if ((bc.events.map Prod.snd).length : Int) > limit then _ else _) = _
        rw [if_pos hgt]
        show goSliceFrom _ _ = _
        rw [goSliceFrom, if_pos ⟨by omega, by omega⟩]
      · rw [List.length_drop]
        omega
    · refine ⟨bc.events.map Prod.snd, ?_, ?_⟩
      · show (if ((bc.events.map Prod.snd).length : Int) > limit then _ else _) = _
        rw [if_neg hgt]
      · omega
  · decide

set_option maxRecDepth 4000 in
/-- Witness for C9: at a concrete non-negative limit the listing is
defined with the predicted length. -/
theorem getRecentEvents_safety_witness :
    ∃ res, GetRecentEvents demoStore2 3 = some res ∧
      res.length = min (3 : Int).toNat demoStore2.events.length :=
  getRecentEvents_safety.1 demoStore2 3 (by omega)

/-! ### C1 -/

set_option maxRecDepth 4000 in
/-- C1 (failing input): the store accepts `demoE1` (timestamp
2024-01-01T00:00:00Z) and then `demoE2` (timestamp one second later);
`GetRecentEvents 2` returns both events but with the strictly older
event first (byte-wise below and distinct, hence chronologically
earlier for equal-length RFC3339 stamps) — the code copies the map
without any sort by timestamp, so "most recent first" does not hold. -/
theorem getRecentEvents_not_sorted :
    GetRecentEvents demoStore2 2 = some [demoE1, demoE2] ∧
    strLeChars demoE1.Data.Timestamp.toList demoE2.Data.Timestamp.toList = true ∧
    demoE1.Data.Timestamp ≠ demoE2.Data.Timestamp := by
  refine ⟨by decide, by decide, by decide⟩

/-! ### C7 -/

/-- C7: after any sequence of successful `AddEvent` calls whose events
are all authored by the key `k`, the agents registry holds exactly one
entry for `k`, recording the hash of the last accepted event and its
acceptance time; and no pre-existing registry entry is ever deleted. -/
theorem agents_track_last :
    ∀ (c : Crypto) (bc : Blockchain) (k : String) (es : List (Event × Nat))
      (e : Event) (t : Nat),
      (bc.agents.map Prod.fst).Nodup →
      (∀ p ∈ es, (p : Event × Nat).1.AuthorPubKey = k) →
      (addAll c bc es).2 = true →
      es.getLast? = some (e, t) →
      ((((addAll c bc es).1.agents.map Prod.fst).count k = 1) ∧
       mapGet (GetAgents (addAll c bc es).1) k =
         some { PubKey := k, LastEventHash := HashEvent c e, LastSeen := t } ∧
       (∀ k', (mapGet bc.agents k').isSome = true →
          (mapGet (GetAgents (addAll c bc es).1) k').isSome = true)) := by
  intro c bc k es
  induction es generalizing bc with
  | nil =>
    intro e t _ _ _ hlast
    simp at hlast
  | cons p rest ih =>
    obtain ⟨e0, t0⟩ := p
    intro e t hnodup hauth hsucc hlast
    cases hv : verifyEvent c e0 with
    | error msg =>
      rw [show (addAll c bc ((e0, t0) :: rest)).2 = false by
        simp [addAll, AddEvent_error_shape c bc e0 t0 msg hv]] at hsucc
      simp at hsucc
    | ok u =>
      cases u
      have hk0 : e0.AuthorPubKey = k := hauth (e0, t0) (List.mem_cons_self _ _)
      have heq : addAll c bc ((e0, t0) :: rest) =
          addAll c { events := upsert bc.events (HashEvent c e0) e0,
                     agents := upsert bc.agents k
                       { PubKey := k, LastEventHash := HashEvent c e0,
                         LastSeen := t0 } } rest := by
        simp [addAll, AddEvent_ok_state c bc e0 t0 hv, hk0]
      cases rest with
      | nil =>
        have he : e0 = e ∧ t0 = t := by
          simpa using hlast
        obtain ⟨he1, he2⟩ := he
        subst he1
        subst he2
        rw [heq]
        refine ⟨count_keys_upsert _ _ _ hnodup, mapGet_upsert_self _ _ _, ?_⟩
        intro k' hk'
        exact mapGet_upsert_isSome _ _ _ _ hk'
      | cons r rs =>
        have hlast' : (r :: rs).getLast? = some (e, t) := by
          rw [List.getLast?_cons_cons] at hlast
          exact hlast
        rw [heq] at hsucc ⊢
        have hres := ih { events := upsert bc.events (HashEvent c e0) e0,
                          agents := upsert bc.agents k
                            { PubKey := k, LastEventHash := HashEvent c e0,
                              LastSeen := t0 } } e t
          (keys_upsert_nodup _ _ _ hnodup)
          (fun q hq => hauth q (List.mem_cons_of_mem _ hq)) hsucc hlast'
        refine ⟨hres.1, hres.2.1, ?_⟩
        intro k' hk'
        exact hres.2.2 k' (mapGet_upsert_isSome _ _ _ _ hk')

set_option maxRecDepth 4000 in
/-- Witness for C7: adding `demoE1` then `demoE2` (both authored by
`demoKey`) leaves exactly one registry entry for that key, pointing at
`demoE2`'s hash. -/
theorem agents_track_last_witness :
    ((((addAll demoCrypto New [(demoE1, 0), (demoE2, 1)]).1.agents.map Prod.fst).count
        (hexEncode demoKey) = 1) ∧
     mapGet (GetAgents (addAll demoCrypto New [(demoE1, 0), (demoE2, 1)]).1)
        (hexEncode demoKey) =
       some { PubKey := hexEncode demoKey, LastEventHash := HashEvent demoCrypto demoE2,
              LastSeen := 1 } ∧
     (∀ k', (mapGet New.agents k').isSome = true →
        (mapGet (GetAgents (addAll demoCrypto New [(demoE1, 0), (demoE2, 1)]).1) k').isSome =
          true)) :=
  agents_track_last demoCrypto New (hexEncode demoKey) [(demoE1, 0), (demoE2, 1)] demoE2 1
    (by simp [New]) (by decide) (by decide) rfl

/-! ### C5: the traversal invariants -/

/-- The way a `traverse` call grows its accumulator: the chain grows at
the back by events `dc`, the visited set grows at the front by hashes
`dh`; the new chain entries are exactly the stored events of the new
hashes in visit order, the new hashes are fresh and pairwise distinct. -/
def ExtendsFrom (bc : Blockchain) (st st' : TraverseState) : Prop :=
  ∃ dc dh, st'.chain = st.chain ++ dc ∧ st'.visited = dh ++ st.visited ∧
    List.Forall₂ (fun e h => mapGet bc.events h = some e) dc dh.reverse ∧
    (∀ x ∈ dh, x ∉ st.visited) ∧ dh.Nodup

theorem extendsFrom_rfl (bc : Blockchain) (st : TraverseState) : ExtendsFrom bc st st :=
  ⟨[], [], by simp, by simp, List.Forall₂.nil, by simp, List.nodup_nil⟩

theorem extendsFrom_trans {bc : Blockchain} {st1 st2 st3 : TraverseState}
    (h12 : ExtendsFrom bc st1 st2) (h23 : ExtendsFrom bc st2 st3) :
    ExtendsFrom bc st1 st3 := by
  obtain ⟨dc1, dh1, hc1, hv1, ha1, hf1, hn1⟩ := h12
  obtain ⟨dc2, dh2, hc2, hv2, ha2, hf2, hn2⟩ := h23
  refine ⟨dc1 ++ dc2, dh2 ++ dh1, ?_, ?_, ?_, ?_, ?_⟩
  · rw [hc2, hc1, List.append_assoc]
  · rw [hv2, hv1, List.append_assoc]
  · rw [List.reverse_append]
    exact List.rel_append ha1 ha2
  · intro x hx
    rcases List.mem_append.mp hx with hx2 | hx1
    · have := hf2 x hx2
      rw [hv1] at this
      intro hmem
      exact this (List.mem_append.mpr (Or.inr hmem))
    · exact hf1 x hx1
  · rw [List.nodup_append]
    refine ⟨hn2, hn1, ?_⟩
    intro x hx2 hx1
    have := hf2 x hx2
    rw [hv1] at this
    exact this (List.mem_append.mpr (Or.inl hx1))

theorem traverse_extendsFrom (bc : Blockchain) :
    ∀ (fuel : Nat) (h : String) (st : TraverseState),
      ExtendsFrom bc st (traverse bc fuel h st) := by
  intro fuel
  induction fuel with
  | zero =>
    intro h st
    exact extendsFrom_rfl bc st
  | succ fuel ihf =>
    have ihl : ∀ (ps : List String) (st : TraverseState),
        ExtendsFrom bc st (ps.foldl (fun acc p => traverse bc fuel p acc) st) := by
      intro ps
      induction ps with
      | nil => intro st; exact extendsFrom_rfl bc st
      | cons p ps ihp =>
        intro st
        exact extendsFrom_trans (ihf p st) (ihp (traverse bc fuel p st))
    intro h st
    by_cases hc : st.visited.contains h
    · simp only [traverse, if_pos hc]
      exact extendsFrom_rfl bc st
    · have hmem : h ∉ st.visited := by simpa using hc
      cases hm : mapGet bc.events h with
      | none =>
        simp only [traverse, if_neg hc, hm]
        exact extendsFrom_rfl bc st
      | some event =>
        simp only [traverse, if_neg hc, hm]
        refine extendsFrom_trans ?_ (ihl event.Parents ⟨st.chain ++ [event], h :: st.visited⟩)
        exact ⟨[event], [h], rfl, rfl,
          List.Forall₂.cons hm List.Forall₂.nil,
          by simpa using hmem, List.nodup_singleton h⟩

theorem foldl_extendsFrom (bc : Blockchain) (fuel : Nat) :
    ∀ (ps : List String) (st : TraverseState),
      ExtendsFrom bc st (ps.foldl (fun acc p => traverse bc fuel p acc) st) := by
  intro ps
  induction ps with
  | nil => intro st; exact extendsFrom_rfl bc st
  | cons p ps ihp =>
    intro st
    exact extendsFrom_trans (traverse_extendsFrom bc fuel p st) (ihp (traverse bc fuel p st))

theorem aligned_keys (bc : Blockchain) (c : Crypto)
    (hcons : ∀ h e, mapGet bc.events h = some e → HashEvent c e = h) :
    ∀ (dc : List Event) (hs : List String),
      List.Forall₂ (fun e h => mapGet bc.events h = some e) dc hs →
      hs = dc.map (HashEvent c) := by
  intro dc hs hf
  induction hf with
  | nil => rfl
  | cons ha _ ih =>
    simp only [List.map_cons]
    rw [ih, hcons _ _ ha]

theorem traverse_paths (bc : Blockchain) (start : String) (D : Nat) :
    ∀ (fuel : Nat) (h : String) (st : TraverseState),
      (∀ e ∈ st.chain, ∃ h' n, mapGet bc.events h' = some e ∧ PathTo bc start h' n ∧ n < D) →
      (∃ k, PathTo bc start h k ∧ k + fuel ≤ D) →
      ∀ e ∈ (traverse bc fuel h st).chain,
        ∃ h' n, mapGet bc.events h' = some e ∧ PathTo bc start h' n ∧ n < D := by
  intro fuel
  induction fuel with
  | zero =>
    intro h st hst _
    exact hst
  | succ fuel ihf =>
    have ihl : ∀ (ps : List String) (st : TraverseState),
        (∀ e ∈ st.chain, ∃ h' n, mapGet bc.events h' = some e ∧ PathTo bc start h' n ∧ n < D) →
        (∀ p ∈ ps, ∃ k, PathTo bc start p k ∧ k + fuel ≤ D) →
        ∀ e ∈ (ps.foldl (fun acc p => traverse bc fuel p acc) st).chain,
          ∃ h' n, mapGet bc.events h' = some e ∧ PathTo bc start h' n ∧ n < D := by
      intro ps
      induction ps with
      | nil =>
        intro st hst _
        exact hst
      | cons p ps ihp =>
        intro st hst hps
        exact ihp (traverse bc fuel p st)
          (ihf p st hst (hps p (List.mem_cons_self _ _)))
          (fun q hq => hps q (List.mem_cons_of_mem _ hq))
    intro h st hst hpath
    by_cases hc : st.visited.contains h
    · simp only [traverse, if_pos hc]
      exact hst
    · cases hm : mapGet bc.events h with
      | none =>
        simp only [traverse, if_neg hc, hm]
        exact hst
      | some event =>
        simp only [traverse, if_neg hc, hm]
        obtain ⟨k, hp, hk⟩ := hpath
        apply ihl event.Parents ⟨st.chain ++ [event], h :: st.visited⟩
        · intro e he
          rcases List.mem_append.mp he with he1 | he2
          · exact hst e he1
          · have : e = event := by simpa using he2
            subst this
            exact ⟨h, k, hm, hp, by omega⟩
        · intro p hp'
          exact ⟨k + 1, PathTo.step hp hm hp', by omega⟩

theorem getEventChain_head (bc : Blockchain) (h : String) (d : Int) :
    ∀ e es, GetEventChain bc h d = e :: es → mapGet bc.events h = some e := by
  intro e es hchain
  unfold GetEventChain at hchain
  cases hd : d.toNat with
  | zero =>
    rw [hd] at hchain
    simp [traverse] at hchain
  | succ fuel =>
    rw [hd] at hchain
    have hc : (⟨[], []⟩ : TraverseState).visited.contains h = false := rfl
    cases hm : mapGet bc.events h with
    | none =>
      simp only [traverse, hc, Bool.false_eq_true, if_false, hm] at hchain
      simp at hchain
    | some event =>
      simp only [traverse, hc, Bool.false_eq_true, if_false, hm] at hchain
      obtain ⟨dc, dh, hcn, _, _, _, _⟩ :=
        foldl_extendsFrom bc fuel event.Parents ⟨[] ++ [event], h :: []⟩
      rw [hcn] at hchain
      simp only [List.nil_append, List.cons_append] at hchain
      have : event = e := (List.cons.inj hchain).1
      exact congrArg some this

/-- An event stored under two distinct keys with a parent link between
them: an adversarial (non-content-addressed) store state. -/
def dupEvent : Event :=
  { Data := { Type' := "dup", Description := "", Payload := [], Timestamp := "" },
    Parents := ["b"], Signature := "", AuthorPubKey := "" }

/-- A store holding `dupEvent` under both `"a"` and `"b"`. -/
def dupStore : Blockchain :=
  { events := [("a", dupEvent), ("b", dupEvent)], agents := [] }

/-- C5 (counterexample): on a store state where the same event value
sits under two distinct keys, `GetEventChain` returns that event twice —
the literal claim "never includes any event twice" fails for arbitrary
store states (the visited set deduplicates hashes, not event values). -/
theorem getEventChain_duplicate_event :
    GetEventChain dupStore ("a") 10 = [dupEvent, dupEvent] ∧
    ¬ (GetEventChain dupStore ("a") 10).Nodup := by
  exact ⟨by decide, by decide⟩

/-- The reference depth-first traversal, written from the spec's words
("returns the events in visitation order: start event first, then
parents depth-first; visits each hash at most once; stops expanding a
branch once `maxDepth` hops are consumed"): it returns the visited
events directly in visitation order, threading the visited set, instead
of appending to an accumulator chain as the source's closure does.  The
refinement conjunct of C5 states that `GetEventChain` computes exactly
this order on every store state. -/
def specDFS (bc : Blockchain) : Nat → String → List String → List Event × List String
  | 0, _, visited => ([], visited)
  | fuel + 1, h, visited =>
    if visited.contains h then ([], visited)
    else
      match mapGet bc.events h with
      | none => ([], visited)
      | some event =>
        let r := event.Parents.foldl
          (fun acc p => (acc.1 ++ (specDFS bc fuel p acc.2).1, (specDFS bc fuel p acc.2).2))
          ([], h :: visited)
        (event :: r.1, r.2)

theorem specFold_chain (bc : Blockchain) (fuel : Nat) :
    ∀ (ps : List String) (a : List Event) (v : List String),
      ps.foldl
        (fun acc p => (acc.1 ++ (specDFS bc fuel p acc.2).1, (specDFS bc fuel p acc.2).2))
        (a, v) =
      (a ++ (ps.foldl
        (fun acc p => (acc.1 ++ (specDFS bc fuel p acc.2).1, (specDFS bc fuel p acc.2).2))
        ([], v)).1,
       (ps.foldl
        (fun acc p => (acc.1 ++ (specDFS bc fuel p acc.2).1, (specDFS bc fuel p acc.2).2))
        ([], v)).2) := by
  intro ps
  induction ps with
  | nil =>
    intro a v
    simp
  | cons p ps ih =>
    intro a v
    simp only [List.foldl_cons, List.nil_append]
    rw [ih (a ++ (specDFS bc fuel p v).1) (specDFS bc fuel p v).2,
        ih (specDFS bc fuel p v).1 (specDFS bc fuel p v).2]
    simp [List.append_assoc]

theorem traverse_eq_specDFS (bc : Blockchain) :
    ∀ (fuel : Nat) (h : String) (st : TraverseState),
      traverse bc fuel h st =
        ⟨st.chain ++ (specDFS bc fuel h st.visited).1, (specDFS bc fuel h st.visited).2⟩ := by
  intro fuel
  induction fuel with
  | zero =>
    intro h st
    simp [traverse, specDFS]
  | succ fuel ihf =>
    have ihl : ∀ (ps : List String) (st : TraverseState),
        ps.foldl (fun acc p => traverse bc fuel p acc) st =
          ⟨st.chain ++ (ps.foldl
            (fun acc p => (acc.1 ++ (specDFS bc fuel p acc.2).1, (specDFS bc fuel p acc.2).2))
            ([], st.visited)).1,
           (ps.foldl
            (fun acc p => (acc.1 ++ (specDFS bc fuel p acc.2).1, (specDFS bc fuel p acc.2).2))
            ([], st.visited)).2⟩ := by
      intro ps
      induction ps with
      | nil =>
        intro st
        simp
      | cons p ps ihp =>
        intro st
        simp only [List.foldl_cons, List.nil_append]
        rw [ihf p st, ihp ⟨st.chain ++ (specDFS bc fuel p st.visited).1,
          (specDFS bc fuel p st.visited).2⟩]
        simp only [List.nil_append]
        rw [specFold_chain bc fuel ps (specDFS bc fuel p st.visited).1
          (specDFS bc fuel p st.visited).2]
        simp [List.append_assoc]
    intro h st
    by_cases hc : st.visited.contains h
    · simp only [traverse, specDFS, if_pos hc]
      simp
    · cases hm : mapGet bc.events h with
      | none =>
        simp only [traverse, specDFS, if_neg hc, hm]
        simp
      | some event =>
        simp only [traverse, specDFS, if_neg hc, hm]
        rw [ihl event.Parents ⟨st.chain ++ [event], h :: st.visited⟩]
        simp [List.append_assoc]

/-- C5 (amended): for every store state, start hash and depth bound,
`GetEventChain` terminates (it is a total function), returns the events
in depth-first visitation order — it equals the reference traversal
`specDFS`, which lists the start event first and then the parents
depth-first, visiting each hash at most once — and never includes an
event reachable only beyond the depth bound (every returned event is
stored at a hash reachable in strictly fewer than `maxDepth` parent
hops from the start, even when parent links form a cycle or a
self-reference); the start event, when present, comes first.  On every
store state in which each stored event is keyed by its own content
hash — the invariant `AddEvent` maintains — no event appears twice;
only this no-duplicates part needs that restriction (see the
counterexample). -/
theorem getEventChain_bounded :
    ∀ (bc : Blockchain) (start : String) (d : Int),
      GetEventChain bc start d = (specDFS bc d.toNat start []).1 ∧
      (∀ e ∈ GetEventChain bc start d,
        ∃ h n, mapGet bc.events h = some e ∧ PathTo bc start h n ∧ (n : Int) < d) ∧
      (∀ e es, GetEventChain bc start d = e :: es → mapGet bc.events start = some e) ∧
      (∀ c : Crypto, (∀ h e, mapGet bc.events h = some e → HashEvent c e = h) →
        (GetEventChain bc start d).Nodup) := by
  intro bc start d
  refine ⟨?_, ?_, getEventChain_head bc start d, ?_⟩
  · unfold GetEventChain
    rw [traverse_eq_specDFS bc d.toNat start ⟨[], []⟩]
    simp
  · intro e he
    have := traverse_paths bc start d.toNat d.toNat start ⟨[], []⟩
      (by intro e' he'; simp at he') ⟨0, PathTo.refl, by omega⟩ e he
    obtain ⟨h', n, hm, hp, hn⟩ := this
    exact ⟨h', n, hm, hp, by omega⟩
  · intro c hcons
    obtain ⟨dc, dh, hcn, hv, ha, _, hn⟩ :=
      traverse_extendsFrom bc d.toNat start ⟨[], []⟩
    have hchain : GetEventChain bc start d = dc := by
      unfold GetEventChain
      rw [hcn]
      simp
    rw [hchain]
    have hkeys : dh.reverse = dc.map (HashEvent c) := aligned_keys bc c hcons dc dh.reverse ha
    have hnr : dh.reverse.Nodup := by simpa using hn
    rw [hkeys] at hnr
    exact List.Nodup.of_map _ hnr

/-- A parentless stored event for the C5 witness store. -/
def chainParent : Event :=
  { Data := { Type' := "p", Description := "parent", Payload := [], Timestamp := "" },
    Parents := [], Signature := "", AuthorPubKey := "" }

/-- An event whose parent is `chainParent`'s hash. -/
def chainChild : Event :=
  { Data := { Type' := "c", Description := "child", Payload := [], Timestamp := "" },
    Parents := [HashEvent demoCrypto chainParent], Signature := "", AuthorPubKey := "" }

/-- A content-addressed store keying each event by its own hash. -/
def chainStore : Blockchain :=
  { events := [(HashEvent demoCrypto chainChild, chainChild),
               (HashEvent demoCrypto chainParent, chainParent)],
    agents := [] }

set_option maxRecDepth 4000 in
/-- Witness for the amended C5 at a concrete hash-consistent store:
the refinement to `specDFS`, the depth bound and the start-first
conclusions hold outright, and the content-addressing hypothesis of the
no-duplicates part is discharged for `chainStore`. -/
theorem getEventChain_bounded_witness :
    GetEventChain chainStore (HashEvent demoCrypto chainChild) 10 =
      (specDFS chainStore (10 : Int).toNat (HashEvent demoCrypto chainChild) []).1 ∧
    (∀ e ∈ GetEventChain chainStore (HashEvent demoCrypto chainChild) 10,
      ∃ h n, mapGet chainStore.events h = some e ∧
        PathTo chainStore (HashEvent demoCrypto chainChild) h n ∧ (n : Int) < 10) ∧
    (∀ e es, GetEventChain chainStore (HashEvent demoCrypto chainChild) 10 = e :: es →
      mapGet chainStore.events (HashEvent demoCrypto chainChild) = some e) ∧
    (GetEventChain chainStore (HashEvent demoCrypto chainChild) 10).Nodup := by
  have hall := getEventChain_bounded chainStore (HashEvent demoCrypto chainChild) 10
  refine ⟨hall.1, hall.2.1, hall.2.2.1, hall.2.2.2 demoCrypto ?_⟩
  intro h e hm
  simp only [chainStore, mapGet] at hm
  split_ifs at hm with h1 h2
  · cases hm
    exact h1
  · cases hm
    exact h2

end BU
